import Mathlib

set_option maxRecDepth 10000

/-!
Shallow embedding of the layercake sharded in-process cache
(src/cache/cache.go) and verification of its specification.

The cache is a fixed array of 64 shards, each owning a key/value map and a
statistics record.  `SetWithTTL` attaches a capacity-1 "exit" channel to the
entry and spawns a watcher goroutine that waits on a `time.Tick` ticker
channel and on the exit channel, and calls `Remove` when either delivers.

The embedding models machine state explicitly: Go maps become functions from
keys to optional entries, channels are named by numeric identities with an
explicit buffered-item count (capacity 1), and each live watcher goroutine is
a record in a list.  Every public call and every watcher turn is one atomic
event; an event either returns normally, blocks (a channel send or receive
that cannot complete immediately), or panics.  Go `int` counters are modelled
as `Nat` (the source only ever increments them), and `time.Duration`
arithmetic is carried out on `Int` with explicit two's-complement wrapping
into the signed 64-bit range.
-/

namespace Layercake

/-- Access statistics of a cache shard (Go struct `Stats`).  The `time.Time`
uptime field is an opaque timestamp modelled as `Nat`. -/
structure Stats where
  hits : Nat
  misses : Nat
  set : Nat
  removed : Nat
  uptime : Nat
  deriving DecidableEq, Repr

/-- A stored cache entry (Go struct `entry`): the value plus the optional
cancellation channel of a TTL watcher; `none` models a nil channel field. -/
structure Entry (α : Type) where
  value : α
  exit : Option Nat
  deriving DecidableEq, Repr

/-- One cache shard (Go struct `shard`): its key/value map and its stats.
The Go map is modelled as a function from keys to optional entries. -/
structure Shard (α : Type) where
  entries : String → Option (Entry α)
  stats : Stats

/-- Package-level shard count (Go: `var shards = 64`). -/
def shards : Nat := 64

/-- A live TTL watcher goroutine spawned by `SetWithTTL`.  It selects between
the ticker channel returned by `time.Tick` (`tickLive := false` when `Tick`
returned a nil channel, which never delivers) and the capacity-1 exit channel
identified by `exitCh`. -/
structure Watcher where
  key : String
  exitCh : Nat
  tickLive : Bool
  deriving DecidableEq, Repr

/-- The whole program state: the Go `Cache` slice of shards (field `shard`,
matching the source accessor `c.shard(n)`), together with the runtime state
the TTL machinery needs: a fresh-name supply for channels, the buffered-item
count of every capacity-1 exit channel, and the list of live watchers. -/
structure Cache (α : Type) where
  shard : Nat → Shard α
  nextCh : Nat
  chanBuf : Nat → Nat
  watchers : List Watcher

variable {α : Type}

/-- FNV-1 32-bit offset basis (Go `hash/fnv`). -/
def offset32 : Nat := 2166136261

/-- FNV-1 32-bit prime (Go `hash/fnv`). -/
def prime32 : Nat := 16777619

/-- One `Write` step of Go `fnv.sum32`: multiply by the prime modulo 2^32,
then xor in the next byte. -/
def fnv32Step (h b : Nat) : Nat := (h * prime32 % 4294967296) ^^^ b

/-- Go `fnv.New32` digest of a byte sequence (FNV-1). -/
def fnv32 (bs : List Nat) : Nat := bs.foldl fnv32Step offset32

/-- UTF-8 encoding of one character, as Go produces for a byte-slice
conversion of a string. -/
def utf8Bytes (c : Char) : List Nat :=
  let n := c.toNat
  if n < 128 then [n]
  else if n < 2048 then [192 + n / 64, 128 + n % 64]
  else if n < 65536 then [224 + n / 4096, 128 + n / 64 % 64, 128 + n % 64]
  else [240 + n / 262144, 128 + n / 4096 % 64, 128 + n / 64 % 64, 128 + n % 64]

/-- The bytes of a key, Go `[]byte(key)`. -/
def strBytes (s : String) : List Nat := (s.data.map utf8Bytes).flatten

/-- Go `getShard`: FNV-32 of the key's bytes reduced modulo the shard count.
We return the index; the source returns the shard pointer at this index. -/
def getShardIdx (key : String) : Nat := fnv32 (strBytes key) % shards

/-- Result value of one event: the Go return values of the call. -/
inductive Out (α : Type) where
  | unit
  | got (value : Option α) (found : Bool)
  | stats (s : Stats)
  deriving DecidableEq, Repr

/-- Outcome of running one event atomically: it returns normally, blocks
(a channel send or receive that cannot complete), or panics. -/
inductive StepRes (α : Type) where
  | ok (s : Cache α) (out : Out α)
  | blocked
  | panicked (msg : String)

/-- Send on a capacity-1 buffered channel: succeeds immediately when the
buffer has room, otherwise the sending operation blocks. -/
def chanSend (s : Cache α) (ch : Nat) : Option (Cache α) :=
  if s.chanBuf ch < 1 then
    some { s with chanBuf := Function.update s.chanBuf ch (s.chanBuf ch + 1) }
  else none

/-- The overwrite prologue shared verbatim by `Set` and `SetWithTTL`:
if the key already holds an entry whose exit channel is not nil, send the
cancellation signal on it. -/
def signalOld (s : Cache α) (eOld : Option (Entry α)) : Option (Cache α) :=
  match eOld with
  | some e =>
    match e.exit with
    | some ch => chanSend s ch
    | none => some s
  | none => some s

/-- Go `Cache.Set`: signal a previous watcher if any, then store the value.
The Go code copies the looked-up entry, assigns only its value field, and
stores the copy back, so the old exit channel field is carried over. -/
def Cache.Set (s : Cache α) (key : String) (value : α) : StepRes α :=
  let i := getShardIdx key
  let eOld := (s.shard i).entries key
  match signalOld s eOld with
  | none => StepRes.blocked
  | some s1 =>
    let e : Entry α := { value := value, exit := eOld.bind Entry.exit }
    let sh := s1.shard i
    let sh2 : Shard α :=
      { sh with
        entries := Function.update sh.entries key (some e),
        stats := { sh.stats with set := sh.stats.set + 1 } }
    StepRes.ok { s1 with shard := Function.update s1.shard i sh2 } Out.unit

/-- Two's-complement wrap of an integer into the signed 64-bit range, as Go
arithmetic on `time.Duration` (an int64) behaves. -/
def wrap64 (x : Int) : Int := (x + 2 ^ 63) % 2 ^ 64 - 2 ^ 63

/-- Go `time.Second` in nanoseconds. -/
def second : Int := 1000000000

/-- Go `time.NewTicker`, which panics on a non-positive interval; we model
only whether construction succeeds. -/
def newTicker (d : Int) : Except String Unit :=
  if d ≤ 0 then Except.error "non-positive interval for NewTicker"
  else Except.ok ()

/-- Go `time.Tick`: returns a nil channel (`none`, which never delivers) for
a non-positive duration, and otherwise the channel of a new ticker. -/
def tick (d : Int) : Except String (Option Unit) :=
  if d ≤ 0 then Except.ok none
  else (newTicker d).map some

/-- Go `Cache.SetWithTTL`: overwrite like `Set`, but attach a fresh
capacity-1 exit channel to the entry, start
`time.Tick(time.Second * time.Duration(ttl))`, and spawn the watcher
goroutine that waits on the ticker and on the exit channel. -/
def Cache.SetWithTTL (s : Cache α) (key : String) (value : α) (ttl : Int) :
    StepRes α :=
  let i := getShardIdx key
  let eOld := (s.shard i).entries key
  match signalOld s eOld with
  | none => StepRes.blocked
  | some s1 =>
    let ch := s1.nextCh
    let e : Entry α := { value := value, exit := some ch }
    let sh := s1.shard i
    let sh2 : Shard α :=
      { sh with
        entries := Function.update sh.entries key (some e),
        stats := { sh.stats with set := sh.stats.set + 1 } }
    match tick (wrap64 (second * ttl)) with
    | Except.error msg => StepRes.panicked msg
    | Except.ok t =>
      StepRes.ok
        { shard := Function.update s1.shard i sh2,
          nextCh := ch + 1,
          chanBuf := Function.update s1.chanBuf ch 0,
          watchers := s1.watchers ++ [{ key := key, exitCh := ch, tickLive := t.isSome }] }
        Out.unit

/-- Go `Cache.Get`: on a hit increment the shard's hits and return the stored
value with true; on a miss increment misses and return nil with false. -/
def Cache.Get (s : Cache α) (key : String) : StepRes α :=
  let i := getShardIdx key
  let sh := s.shard i
  match sh.entries key with
  | some v =>
    let sh2 : Shard α := { sh with stats := { sh.stats with hits := sh.stats.hits + 1 } }
    StepRes.ok { s with shard := Function.update s.shard i sh2 } (Out.got (some v.value) true)
  | none =>
    let sh2 : Shard α := { sh with stats := { sh.stats with misses := sh.stats.misses + 1 } }
    StepRes.ok { s with shard := Function.update s.shard i sh2 } (Out.got none false)

/-- Go `Cache.Remove`: when the key exists, signal its exit channel if any,
delete the entry, and increment removed; otherwise do nothing. -/
def Cache.Remove (s : Cache α) (key : String) : StepRes α :=
  let i := getShardIdx key
  let sh := s.shard i
  match sh.entries key with
  | none => StepRes.ok s Out.unit
  | some e =>
    let sent :=
      match e.exit with
      | some ch => chanSend s ch
      | none => some s
    match sent with
    | none => StepRes.blocked
    | some s1 =>
      let sh1 := s1.shard i
      let sh2 : Shard α :=
        { sh1 with
          entries := Function.update sh1.entries key none,
          stats := { sh1.stats with removed := sh1.stats.removed + 1 } }
      StepRes.ok { s1 with shard := Function.update s1.shard i sh2 } Out.unit

/-- The loop body of `GetStats`: accumulate one shard's counters into the
aggregate, recording shard 0's uptime when visiting index 0. -/
def statsAdd (s : Cache α) (acc : Stats) (i : Nat) : Stats :=
  let st := (s.shard i).stats
  { hits := acc.hits + st.hits,
    misses := acc.misses + st.misses,
    set := acc.set + st.set,
    removed := acc.removed + st.removed,
    uptime := if i = 0 then st.uptime else acc.uptime }

/-- Go `Cache.GetStats`: fold the loop body over shard indices 0..63 starting
from the zero `Stats` aggregate; the state is returned unchanged. -/
def Cache.GetStats (s : Cache α) : StepRes α :=
  StepRes.ok s (Out.stats ((List.range shards).foldl (statsAdd s)
    { hits := 0, misses := 0, set := 0, removed := 0, uptime := 0 }))

/-- One turn of a live watcher goroutine for channel `ch`: receive from
whichever of its two channels delivers (`viaTick` selects the ticker branch,
enabled only when the ticker channel is not nil; the exit branch consumes one
buffered signal), then run `c.Remove(key)` as the loop body does in both
branches, and return, leaving the live set. -/
def Cache.fire (s : Cache α) (ch : Nat) (viaTick : Bool) : StepRes α :=
  match s.watchers.find? (fun w => w.exitCh == ch) with
  | none => StepRes.blocked
  | some w =>
    let recv : Option (Cache α) :=
      if viaTick then
        if w.tickLive then some s else none
      else
        if 1 ≤ s.chanBuf ch then
          some { s with chanBuf := Function.update s.chanBuf ch (s.chanBuf ch - 1) }
        else none
    match recv with
    | none => StepRes.blocked
    | some s1 =>
      match s1.Remove w.key with
      | StepRes.ok s2 _ =>
        StepRes.ok
          { s2 with watchers := s2.watchers.filter (fun w2 => w2.exitCh != ch) }
          Out.unit
      | r => r

/-- Go `newShard`, with the construction timestamp abstract. -/
def newShard (t : Nat) : Shard α :=
  { entries := fun _ => none,
    stats := { hits := 0, misses := 0, set := 0, removed := 0, uptime := t } }

/-- Go `New`: 64 fresh shards; no channels and no watchers exist yet. -/
def Cache.New (α : Type) (t : Nat) : Cache α :=
  { shard := fun _ => newShard t, nextCh := 0, chanBuf := fun _ => 0, watchers := [] }

/-- A schedulable atomic event: one public call, or one watcher turn. -/
inductive Op (α : Type) where
  | set (key : String) (value : α)
  | setWithTTL (key : String) (value : α) (ttl : Int)
  | get (key : String)
  | remove (key : String)
  | getStats
  | fireTick (ch : Nat)
  | fireExit (ch : Nat)

/-- Dispatch one event. -/
def step (s : Cache α) : Op α → StepRes α
  | Op.set k v => s.Set k v
  | Op.setWithTTL k v ttl => s.SetWithTTL k v ttl
  | Op.get k => s.Get k
  | Op.remove k => s.Remove k
  | Op.getStats => s.GetStats
  | Op.fireTick ch => s.fire ch true
  | Op.fireExit ch => s.fire ch false

/-- Run a schedule of events, requiring every event to return normally. -/
def runSt (s : Cache α) : List (Op α) → Option (Cache α)
  | [] => some s
  | op :: ops =>
    match step s op with
    | StepRes.ok s1 _ => runSt s1 ops
    | _ => none

/-- The returned values of an event that returned normally. -/
def outOf : StepRes α → Option (Out α)
  | StepRes.ok _ o => some o
  | _ => none

/-- The post-state of an event that returned normally, with a fallback. -/
def stOf (r : StepRes α) (d : Cache α) : Cache α :=
  match r with
  | StepRes.ok s _ => s
  | _ => d

/-- Sum of the hits counters over all shards. -/
def hitsTotal (s : Cache α) : Nat :=
  ((List.range shards).map fun i => (s.shard i).stats.hits).sum

/-- Sum of the misses counters over all shards. -/
def missesTotal (s : Cache α) : Nat :=
  ((List.range shards).map fun i => (s.shard i).stats.misses).sum

/-- Sum of the set counters over all shards. -/
def setTotal (s : Cache α) : Nat :=
  ((List.range shards).map fun i => (s.shard i).stats.set).sum

/-- Sum of the removed counters over all shards. -/
def removedTotal (s : Cache α) : Nat :=
  ((List.range shards).map fun i => (s.shard i).stats.removed).sum

/-- Pointwise order on the four counters of a stats record. -/
def statsLE (a b : Stats) : Prop :=
  a.hits ≤ b.hits ∧ a.misses ≤ b.misses ∧ a.set ≤ b.set ∧ a.removed ≤ b.removed

/-- Channel identities held by live watchers lie below the fresh-name
supply.  This holds in every reachable state and is preserved by every
event, since each new watcher receives a freshly allocated channel. -/
def WatchersFresh (s : Cache α) : Prop :=
  ∀ w ∈ s.watchers, w.exitCh < s.nextCh

/-- Whether an event is a firing of the watcher on channel `ch`. -/
def firesOn (ch : Nat) : Op α → Bool
  | Op.fireTick c => c == ch
  | Op.fireExit c => c == ch
  | _ => false

/-- How many more times a watcher on channel `ch` can ever fire: once if one
is live now, and once more only if the channel has not been allocated yet. -/
def budget (ch : Nat) (s : Cache α) : Nat :=
  (if ∃ w ∈ s.watchers, w.exitCh = ch then 1 else 0) +
  (if s.nextCh ≤ ch then 1 else 0)

/-- A concrete fresh cache over natural-number values, used to exercise the
general theorems on executable inputs. -/
def demo0 : Cache Nat := Cache.New Nat 0

/-- The demo cache after one plain `Set`. -/
def demoSet : Cache Nat := stOf (demo0.Set "a" 5) demo0

/-- The demo cache after `Set` and one `Remove` of the same key. -/
def demoRm1 : Cache Nat := stOf (demoSet.Remove "a") demoSet

/-- The demo cache after `Set` and two `Remove` calls on the same key. -/
def demoRm2 : Cache Nat := stOf (demoRm1.Remove "a") demoRm1

end Layercake

namespace Layercake

variable {α : Type}

/-- `time.Tick` never fails: a non-positive duration yields a nil channel and
a positive one satisfies the `NewTicker` precondition. -/
lemma tick_ne_error (d : Int) (msg : String) : tick d ≠ Except.error msg := by
  unfold tick newTicker
  split
  · simp
  · next h => simp [if_neg h, Except.map]

/-- C9: for every key, value and non-positive ttl, `SetWithTTL` does not
panic: `time.Tick` returns a nil channel for a non-positive duration instead
of reaching the panicking `NewTicker`, so the call is handled
deterministically (the entry is stored; the watcher simply never times
out). -/
theorem setWithTTL_nonpositive_no_panic (α : Type) (s : Cache α) (k : String) (v : α)
    (ttl : Int) (h : ttl ≤ 0) (msg : String) :
    s.SetWithTTL k v ttl ≠ StepRes.panicked msg := by
  unfold Cache.SetWithTTL
  cases hs : signalOld s ((s.shard (getShardIdx k)).entries k) with
  | none => simp [hs]
  | some s1 =>
    cases ht : tick (wrap64 (second * ttl)) with
    | error m => exact absurd ht (tick_ne_error _ _)
    | ok t => simp [hs, ht]

theorem setWithTTL_nonpositive_no_panic_witness :
    (Cache.New Nat 0).SetWithTTL "k" 1 0 ≠ StepRes.panicked "boom" :=
  setWithTTL_nonpositive_no_panic Nat (Cache.New Nat 0) "k" 1 0 (by decide) "boom"

/-- The router's result is always an in-bounds shard index. -/
lemma getShardIdx_lt (k : String) : getShardIdx k < shards :=
  Nat.mod_lt _ (by decide)

/-- C7: the key router is a pure total function of the key: for every key,
including the empty string, it equals the FNV-32 digest of the key's bytes
reduced modulo the shard count, and that index is in bounds of the shard
array. -/
theorem getShardIdx_spec (k : String) :
    getShardIdx k = fnv32 (strBytes k) % shards ∧ getShardIdx k < shards :=
  ⟨rfl, getShardIdx_lt k⟩

/-- C3: immediately after a completed `Set(k, v)`, with no intervening event
on k, `Get(k)` returns the pair (v, true). -/
theorem set_then_get (α : Type) (s : Cache α) (k : String) (v : α) (s1 : Cache α)
    (h : s.Set k v = StepRes.ok s1 Out.unit) :
    outOf (s1.Get k) = some (Out.got (some v) true) := by
  unfold Cache.Set at h
  cases hs : signalOld s ((s.shard (getShardIdx k)).entries k) with
  | none =>
    simp only [hs] at h
    exact StepRes.noConfusion h
  | some s2 =>
    simp only [hs] at h
    injection h with h1 h2
    subst h1
    simp [Cache.Get, outOf, Function.update_same]

theorem set_then_get_witness :
    outOf ((stOf ((Cache.New Nat 0).Set "a" 5) (Cache.New Nat 0)).Get "a")
      = some (Out.got (some 5) true) :=
  set_then_get Nat (Cache.New Nat 0) "a" 5 _ rfl

end Layercake

namespace Layercake

variable {α : Type}

/-- C4: if k is present in its shard, `Get(k)` returns the stored value with
found = true and increments exactly that shard's hits counter, leaving misses
unchanged; if k is absent (in particular before any `Set(k, ...)` on a fresh
cache), it returns (nil, false) and increments exactly that shard's misses
counter, leaving hits unchanged. -/
theorem get_spec (α : Type) (s : Cache α) (k : String) :
    match (s.shard (getShardIdx k)).entries k with
    | some e =>
        outOf (s.Get k) = some (Out.got (some e.value) true) ∧
        ((stOf (s.Get k) s).shard (getShardIdx k)).stats.hits
          = (s.shard (getShardIdx k)).stats.hits + 1 ∧
        ((stOf (s.Get k) s).shard (getShardIdx k)).stats.misses
          = (s.shard (getShardIdx k)).stats.misses
    | none =>
        outOf (s.Get k) = some (Out.got none false) ∧
        ((stOf (s.Get k) s).shard (getShardIdx k)).stats.misses
          = (s.shard (getShardIdx k)).stats.misses + 1 ∧
        ((stOf (s.Get k) s).shard (getShardIdx k)).stats.hits
          = (s.shard (getShardIdx k)).stats.hits := by
  cases he : (s.shard (getShardIdx k)).entries k <;>
    simp [Cache.Get, he, outOf, stOf, Function.update_same]

/-- Summing a pointwise-bumped function over an index range adds one. -/
lemma sum_map_update_succ (g : Nat → Nat) (n i : Nat) (hi : i < n) :
    ((List.range n).map (Function.update g i (g i + 1))).sum
      = ((List.range n).map g).sum + 1 := by
  induction n with
  | zero => exact absurd hi (Nat.not_lt_zero i)
  | succ n ih =>
    rw [List.range_succ, List.map_append, List.map_append, List.sum_append, List.sum_append]
    by_cases hin : i = n
    · subst hin
      have hmap : (List.range i).map (Function.update g i (g i + 1)) = (List.range i).map g := by
        apply List.map_congr_left
        intro j hj
        exact Function.update_noteq (Nat.ne_of_lt (List.mem_range.mp hj)) _ _
      rw [hmap]
      simp [Function.update_same]
      omega
    · have hi' : i < n := by omega
      have hne : n ≠ i := by omega
      rw [ih hi']
      simp [Function.update_noteq hne]
      omega

/-- `chanSend` only touches the channel buffers. -/
lemma chanSend_fields {s s1 : Cache α} {ch : Nat} (h : chanSend s ch = some s1) :
    s1.shard = s.shard ∧ s1.nextCh = s.nextCh ∧ s1.watchers = s.watchers := by
  unfold chanSend at h
  split at h
  · injection h with h1
    subst h1
    exact ⟨rfl, rfl, rfl⟩
  · exact Option.noConfusion h

/-- The overwrite prologue only touches the channel buffers. -/
lemma signalOld_fields {s s1 : Cache α} {eo : Option (Entry α)} (h : signalOld s eo = some s1) :
    s1.shard = s.shard ∧ s1.nextCh = s.nextCh ∧ s1.watchers = s.watchers := by
  unfold signalOld at h
  match eo, h with
  | none, h => injection h with h1; subst h1; exact ⟨rfl, rfl, rfl⟩
  | some e, h =>
    match he : e.exit, h with
    | none, h => simp only [he] at h; injection h with h1; subst h1; exact ⟨rfl, rfl, rfl⟩
    | some ch, h => simp only [he] at h; exact chanSend_fields h

/-- Remove on an absent key is the identity. -/
lemma remove_none {s : Cache α} {k : String}
    (he : (s.shard (getShardIdx k)).entries k = none) :
    s.Remove k = StepRes.ok s Out.unit := by
  unfold Cache.Remove
  simp [he]

/-- `removedTotal` depends only on the shard array. -/
lemma removedTotal_congr {s1 s2 : Cache α} (h : s1.shard = s2.shard) :
    removedTotal s1 = removedTotal s2 := by
  unfold removedTotal
  rw [h]

/-- Projecting removed through a single-shard update. -/
lemma removed_comp_update (f : Nat → Shard α) (i : Nat) (sh : Shard α) :
    (fun j => (Function.update f i sh j).stats.removed)
      = Function.update (fun j => (f j).stats.removed) i sh.stats.removed := by
  funext j
  by_cases hj : j = i
  · subst hj; simp
  · simp [Function.update_noteq hj]

/-- Bumping removed on one in-range shard adds one to the total. -/
lemma removedTotal_update (f : Nat → Shard α) (nc : Nat) (cb : Nat → Nat) (ws : List Watcher)
    (i : Nat) (hi : i < shards) (sh2 : Shard α)
    (hr : sh2.stats.removed = (f i).stats.removed + 1) :
    removedTotal (Cache.mk (Function.update f i sh2) nc cb ws)
      = removedTotal (Cache.mk f nc cb ws) + 1 := by
  unfold removedTotal
  show ((List.range shards).map fun j => (Function.update f i sh2 j).stats.removed).sum
      = ((List.range shards).map fun j => (f j).stats.removed).sum + 1
  rw [removed_comp_update, hr]
  exact sum_map_update_succ _ shards i hi

/-- Remove on a present key that completes empties the slot and bumps the
removed total by one. -/
lemma remove_present {s : Cache α} {k : String} {e : Entry α}
    (he : (s.shard (getShardIdx k)).entries k = some e) {s1 : Cache α} {o1 : Out α}
    (h1 : s.Remove k = StepRes.ok s1 o1) :
    (s1.shard (getShardIdx k)).entries k = none ∧
    removedTotal s1 = removedTotal s + 1 := by
  unfold Cache.Remove at h1
  simp only [he] at h1
  cases hsent : (match e.exit with | some ch => chanSend s ch | none => some s) with
  | none =>
    simp only [hsent] at h1
    exact StepRes.noConfusion h1
  | some sA =>
    simp only [hsent] at h1
    have hA : sA.shard = s.shard := by
      cases hex : e.exit with
      | none =>
        simp only [hex] at hsent
        injection hsent with hh
        subst hh
        rfl
      | some ch =>
        simp only [hex] at hsent
        exact (chanSend_fields hsent).1
    injection h1 with e1 e2
    subst e1
    constructor
    · simp [Function.update_same]
    · have step1 :=
        removedTotal_update sA.shard sA.nextCh sA.chanBuf sA.watchers
          (getShardIdx k) (getShardIdx_lt k)
          ({ entries := Function.update (sA.shard (getShardIdx k)).entries k none,
             stats := { (sA.shard (getShardIdx k)).stats with
               removed := (sA.shard (getShardIdx k)).stats.removed + 1 } } : Shard α) rfl
      have hcongr :
          removedTotal (Cache.mk sA.shard sA.nextCh sA.chanBuf sA.watchers) = removedTotal s :=
        removedTotal_congr hA
      exact step1.trans (by rw [hcongr])

/-- C5: Remove is idempotent: when the key does not exist the whole cache
state is returned unchanged (no error, no entry change, no counter change),
and two consecutive `Remove(k)` calls increment the total removed counter
exactly once when k was present (and not at all when it never was). -/
theorem remove_idempotent (α : Type) (s : Cache α) (k : String) :
    ((s.shard (getShardIdx k)).entries k = none → s.Remove k = StepRes.ok s Out.unit) ∧
    (∀ s1 s2 o1 o2, s.Remove k = StepRes.ok s1 o1 → s1.Remove k = StepRes.ok s2 o2 →
      removedTotal s2 = removedTotal s +
        (if ((s.shard (getShardIdx k)).entries k).isSome then 1 else 0)) := by
  constructor
  · exact remove_none
  · intro s1 s2 o1 o2 h1 h2
    cases he : (s.shard (getShardIdx k)).entries k with
    | none =>
      rw [remove_none he] at h1
      cases h1
      rw [remove_none he] at h2
      cases h2
      simp [he]
    | some e =>
      obtain hnone_hinc := remove_present he h1
      rw [remove_none hnone_hinc.1] at h2
      cases h2
      simp only [he, Option.isSome_some, if_true]
      exact hnone_hinc.2

/-- The GetStats loop computes per-counter sums over the visited indices and
records shard 0's uptime when index 0 is visited. -/
lemma getStats_foldl (s : Cache α) (l : List Nat) (acc : Stats) :
    l.foldl (statsAdd s) acc
    = { hits := acc.hits + (l.map fun i => (s.shard i).stats.hits).sum,
        misses := acc.misses + (l.map fun i => (s.shard i).stats.misses).sum,
        set := acc.set + (l.map fun i => (s.shard i).stats.set).sum,
        removed := acc.removed + (l.map fun i => (s.shard i).stats.removed).sum,
        uptime := if 0 ∈ l then (s.shard 0).stats.uptime else acc.uptime } := by
  induction l generalizing acc with
  | nil => simp
  | cons i t ih =>
    rw [List.foldl_cons, ih]
    by_cases hi : i = 0
    · subst hi
      simp [statsAdd, Stats.mk.injEq, List.mem_cons, Nat.add_assoc]
    · have hi2 : ¬((0 : Nat) = i) := fun hh => hi hh.symm
      simp [statsAdd, Stats.mk.injEq, List.mem_cons, Nat.add_assoc, hi, hi2]

/-- C6: GetStats mutates no cache state (it returns the state unchanged) and
returns a detached aggregate whose hits, misses, set and removed fields are
the sums of those counters over all shards, and whose uptime is shard 0's
uptime.  The snapshot is a value, so later mutation of the cache cannot
change it. -/
theorem getStats_spec (α : Type) (s : Cache α) :
    s.GetStats = StepRes.ok s (Out.stats
      { hits := hitsTotal s, misses := missesTotal s, set := setTotal s,
        removed := removedTotal s, uptime := (s.shard 0).stats.uptime }) := by
  unfold Cache.GetStats
  rw [getStats_foldl]
  simp [hitsTotal, missesTotal, setTotal, removedTotal, shards, List.mem_range]

lemma statsLE_refl (a : Stats) : statsLE a a :=
  ⟨Nat.le_refl _, Nat.le_refl _, Nat.le_refl _, Nat.le_refl _⟩

lemma statsLE_trans {a b c : Stats} (h1 : statsLE a b) (h2 : statsLE b c) : statsLE a c :=
  ⟨Nat.le_trans h1.1 h2.1, Nat.le_trans h1.2.1 h2.2.1,
   Nat.le_trans h1.2.2.1 h2.2.2.1, Nat.le_trans h1.2.2.2 h2.2.2.2⟩

/-- Updating one shard to a counter-wise larger one is monotone everywhere. -/
lemma statsLE_update_bump {f : Nat → Shard α} {i : Nat} {sh2 : Shard α}
    (hst : statsLE ((f i).stats) sh2.stats) (j : Nat) :
    statsLE ((f j).stats) ((Function.update f i sh2 j).stats) := by
  by_cases hj : j = i
  · subst hj
    rw [Function.update_same]
    exact hst
  · rw [Function.update_noteq hj]
    exact statsLE_refl _

/-- Set never decreases any counter of any shard. -/
lemma set_mono {s : Cache α} {k : String} {v : α} {s1 : Cache α} {out : Out α}
    (h : Cache.Set s k v = StepRes.ok s1 out) (j : Nat) :
    statsLE ((s.shard j).stats) ((s1.shard j).stats) := by
  unfold Cache.Set at h
  cases hs : signalOld s ((s.shard (getShardIdx k)).entries k) with
  | none =>
    simp only [hs] at h
    exact StepRes.noConfusion h
  | some s2 =>
    simp only [hs] at h
    cases h
    have h2 : s2.shard = s.shard := (signalOld_fields hs).1
    rw [← h2]
    refine statsLE_update_bump ?_ j
    exact ⟨Nat.le_refl _, Nat.le_refl _, Nat.le_succ _, Nat.le_refl _⟩

/-- SetWithTTL never decreases any counter of any shard. -/
lemma setWithTTL_mono {s : Cache α} {k : String} {v : α} {ttl : Int} {s1 : Cache α}
    {out : Out α} (h : Cache.SetWithTTL s k v ttl = StepRes.ok s1 out) (j : Nat) :
    statsLE ((s.shard j).stats) ((s1.shard j).stats) := by
  unfold Cache.SetWithTTL at h
  cases hs : signalOld s ((s.shard (getShardIdx k)).entries k) with
  | none =>
    simp only [hs] at h
    exact StepRes.noConfusion h
  | some s2 =>
    simp only [hs] at h
    cases ht : tick (wrap64 (second * ttl)) with
    | error m =>
      simp only [ht] at h
      exact StepRes.noConfusion h
    | ok t =>
      simp only [ht] at h
      cases h
      have h2 : s2.shard = s.shard := (signalOld_fields hs).1
      rw [← h2]
      refine statsLE_update_bump ?_ j
      exact ⟨Nat.le_refl _, Nat.le_refl _, Nat.le_succ _, Nat.le_refl _⟩

/-- Get never decreases any counter of any shard. -/
lemma get_mono {s : Cache α} {k : String} {s1 : Cache α} {out : Out α}
    (h : Cache.Get s k = StepRes.ok s1 out) (j : Nat) :
    statsLE ((s.shard j).stats) ((s1.shard j).stats) := by
  unfold Cache.Get at h
  cases he : (s.shard (getShardIdx k)).entries k with
  | some v =>
    simp only [he] at h
    cases h
    refine statsLE_update_bump ?_ j
    exact ⟨Nat.le_succ _, Nat.le_refl _, Nat.le_refl _, Nat.le_refl _⟩
  | none =>
    simp only [he] at h
    cases h
    refine statsLE_update_bump ?_ j
    exact ⟨Nat.le_refl _, Nat.le_succ _, Nat.le_refl _, Nat.le_refl _⟩

/-- Remove: full shape of a normally returning call, as needed both for the
monotonicity and for the watcher-counting arguments. -/
lemma remove_ok {s : Cache α} {k : String} {s1 : Cache α} {out : Out α}
    (h : Cache.Remove s k = StepRes.ok s1 out) :
    s1.nextCh = s.nextCh ∧ s1.watchers = s.watchers ∧
    ∀ j, statsLE ((s.shard j).stats) ((s1.shard j).stats) := by
  unfold Cache.Remove at h
  cases he : (s.shard (getShardIdx k)).entries k with
  | none =>
    simp only [he] at h
    cases h
    exact ⟨rfl, rfl, fun j => statsLE_refl _⟩
  | some e =>
    simp only [he] at h
    cases hsent : (match e.exit with | some ch => chanSend s ch | none => some s) with
    | none =>
      simp only [hsent] at h
      exact StepRes.noConfusion h
    | some sA =>
      simp only [hsent] at h
      have hfields : sA.shard = s.shard ∧ sA.nextCh = s.nextCh ∧ sA.watchers = s.watchers := by
        cases hex : e.exit with
        | none =>
          simp only [hex] at hsent
          cases hsent
          exact ⟨rfl, rfl, rfl⟩
        | some ch =>
          simp only [hex] at hsent
          exact chanSend_fields hsent
      cases h
      refine ⟨hfields.2.1, hfields.2.2, fun j => ?_⟩
      rw [← hfields.1]
      refine statsLE_update_bump ?_ j
      exact ⟨Nat.le_refl _, Nat.le_refl _, Nat.le_refl _, Nat.le_succ _⟩

/-- GetStats returns the state unchanged. -/
lemma getStats_ok {s : Cache α} {s1 : Cache α} {out : Out α}
    (h : Cache.GetStats s = StepRes.ok s1 out) : s1 = s := by
  unfold Cache.GetStats at h
  cases h
  rfl

/-- A watcher turn: full shape of a normally returning firing. -/
lemma fire_ok {s : Cache α} {ch : Nat} {b : Bool} {s1 : Cache α} {out : Out α}
    (h : Cache.fire s ch b = StepRes.ok s1 out) :
    (∃ w ∈ s.watchers, w.exitCh = ch) ∧ s1.nextCh = s.nextCh ∧
    s1.watchers = s.watchers.filter (fun w2 => w2.exitCh != ch) ∧
    ∀ j, statsLE ((s.shard j).stats) ((s1.shard j).stats) := by
  unfold Cache.fire at h
  cases hfind : s.watchers.find? (fun w => w.exitCh == ch) with
  | none =>
    simp only [hfind] at h
    exact StepRes.noConfusion h
  | some w =>
    simp only [hfind] at h
    have hmem : w ∈ s.watchers := List.mem_of_find?_eq_some hfind
    have hpred : w.exitCh = ch := by
      have hps := List.find?_some hfind
      simpa using hps
    cases hrecv : (if b then (if w.tickLive then some s else none)
        else (if 1 ≤ s.chanBuf ch then
          some { s with chanBuf := Function.update s.chanBuf ch (s.chanBuf ch - 1) }
          else none)) with
    | none =>
      simp only [hrecv] at h
      exact StepRes.noConfusion h
    | some sB =>
      simp only [hrecv] at h
      have hB : sB.shard = s.shard ∧ sB.nextCh = s.nextCh ∧ sB.watchers = s.watchers := by
        split at hrecv
        · split at hrecv
          · cases hrecv
            exact ⟨rfl, rfl, rfl⟩
          · exact Option.noConfusion hrecv
        · split at hrecv
          · cases hrecv
            exact ⟨rfl, rfl, rfl⟩
          · exact Option.noConfusion hrecv
      cases hrem : Cache.Remove sB w.key with
      | ok s2 o2 =>
        simp only [hrem] at h
        cases h
        obtain ⟨hn2, hw2, hmono2⟩ := remove_ok hrem
        refine ⟨⟨w, hmem, hpred⟩, ?_, ?_, fun j => ?_⟩
        · exact hn2.trans hB.2.1
        · show s2.watchers.filter (fun w2 => w2.exitCh != ch) = _
          rw [hw2, hB.2.2]
        · have hmb : statsLE ((s.shard j).stats) ((sB.shard j).stats) := by
            rw [hB.1]
            exact statsLE_refl _
          exact statsLE_trans hmb (hmono2 j)
      | blocked =>
        simp only [hrem] at h
        exact StepRes.noConfusion h
      | panicked m =>
        simp only [hrem] at h
        exact StepRes.noConfusion h

/-- Any normally returning event never decreases any counter of any shard. -/
lemma step_mono {s : Cache α} {op : Op α} {s1 : Cache α} {out : Out α}
    (h : step s op = StepRes.ok s1 out) (j : Nat) :
    statsLE ((s.shard j).stats) ((s1.shard j).stats) := by
  cases op with
  | set k v => exact set_mono h j
  | setWithTTL k v ttl => exact setWithTTL_mono h j
  | get k => exact get_mono h j
  | remove k => exact (remove_ok h).2.2 j
  | getStats => rw [getStats_ok h]; exact statsLE_refl _
  | fireTick ch => exact (fire_ok h).2.2.2 j
  | fireExit ch => exact (fire_ok h).2.2.2 j

/-- C10: the statistics counters are monotone: along any schedule of public
calls and watcher turns in which every event returns normally, no shard's
hits, misses, set or removed counter ever decreases. -/
theorem counters_monotone (α : Type) (s : Cache α) (ops : List (Op α)) (s1 : Cache α)
    (h : runSt s ops = some s1) (j : Nat) :
    statsLE ((s.shard j).stats) ((s1.shard j).stats) := by
  induction ops generalizing s with
  | nil =>
    unfold runSt at h
    cases h
    exact statsLE_refl _
  | cons op t ih =>
    unfold runSt at h
    cases hst : step s op with
    | ok s2 o =>
      simp only [hst] at h
      exact statsLE_trans (step_mono hst j) (ih _ h)
    | blocked =>
      simp only [hst] at h
      exact Option.noConfusion h
    | panicked m =>
      simp only [hst] at h
      exact Option.noConfusion h

/-- Set leaves the runtime bookkeeping (fresh names, watcher list) alone. -/
lemma set_runtime {s : Cache α} {k : String} {v : α} {s1 : Cache α} {out : Out α}
    (h : Cache.Set s k v = StepRes.ok s1 out) :
    s1.nextCh = s.nextCh ∧ s1.watchers = s.watchers := by
  unfold Cache.Set at h
  cases hs : signalOld s ((s.shard (getShardIdx k)).entries k) with
  | none =>
    simp only [hs] at h
    exact StepRes.noConfusion h
  | some s2 =>
    simp only [hs] at h
    cases h
    exact ⟨(signalOld_fields hs).2.1, (signalOld_fields hs).2.2⟩

/-- Get leaves the runtime bookkeeping alone. -/
lemma get_runtime {s : Cache α} {k : String} {s1 : Cache α} {out : Out α}
    (h : Cache.Get s k = StepRes.ok s1 out) :
    s1.nextCh = s.nextCh ∧ s1.watchers = s.watchers := by
  unfold Cache.Get at h
  cases he : (s.shard (getShardIdx k)).entries k with
  | some v =>
    simp only [he] at h
    cases h
    exact ⟨rfl, rfl⟩
  | none =>
    simp only [he] at h
    cases h
    exact ⟨rfl, rfl⟩

/-- SetWithTTL allocates the next channel and appends one watcher on it. -/
lemma setWithTTL_runtime {s : Cache α} {k : String} {v : α} {ttl : Int} {s1 : Cache α}
    {out : Out α} (h : Cache.SetWithTTL s k v ttl = StepRes.ok s1 out) :
    ∃ b, s1.nextCh = s.nextCh + 1 ∧
      s1.watchers = s.watchers ++ [{ key := k, exitCh := s.nextCh, tickLive := b }] := by
  unfold Cache.SetWithTTL at h
  cases hs : signalOld s ((s.shard (getShardIdx k)).entries k) with
  | none =>
    simp only [hs] at h
    exact StepRes.noConfusion h
  | some s2 =>
    simp only [hs] at h
    cases ht : tick (wrap64 (second * ttl)) with
    | error m =>
      simp only [ht] at h
      exact StepRes.noConfusion h
    | ok t =>
      simp only [ht] at h
      cases h
      obtain ⟨hsh, hn, hw⟩ := signalOld_fields hs
      refine ⟨t.isSome, ?_, ?_⟩
      · show s2.nextCh + 1 = s.nextCh + 1
        rw [hn]
      · show s2.watchers ++ [{ key := k, exitCh := s2.nextCh, tickLive := t.isSome }]
            = s.watchers ++ [{ key := k, exitCh := s.nextCh, tickLive := t.isSome }]
        rw [hw, hn]

/-- Events that keep the watcher list and the name supply keep the budget. -/
lemma budget_eq_of_runtime {s s1 : Cache α} (hn : s1.nextCh = s.nextCh)
    (hw : s1.watchers = s.watchers) (ch : Nat) : budget ch s1 = budget ch s := by
  unfold budget
  rw [hn, hw]

lemma watchersFresh_of_runtime {s s1 : Cache α} (hn : s1.nextCh = s.nextCh)
    (hw : s1.watchers = s.watchers) (hf : WatchersFresh s) : WatchersFresh s1 := by
  intro w hwm
  rw [hw] at hwm
  rw [hn]
  exact hf w hwm

/-- SetWithTTL keeps watcher freshness and never increases the fire budget
of any fixed channel. -/
lemma budget_setWithTTL {s s1 : Cache α} {b : Bool} {k : String}
    (hf : WatchersFresh s)
    (hn : s1.nextCh = s.nextCh + 1)
    (hw : s1.watchers = s.watchers ++ [{ key := k, exitCh := s.nextCh, tickLive := b }])
    (ch : Nat) :
    WatchersFresh s1 ∧ budget ch s1 ≤ budget ch s := by
  constructor
  · intro w hwm
    rw [hw, List.mem_append] at hwm
    rw [hn]
    cases hwm with
    | inl hin => exact Nat.lt_trans (hf w hin) (Nat.lt_succ_self _)
    | inr hin =>
      simp only [List.mem_singleton] at hin
      subst hin
      exact Nat.lt_succ_self _
  · unfold budget
    rw [hn, hw]
    by_cases hch : s.nextCh ≤ ch
    · have hnone : ¬ ∃ w ∈ s.watchers, w.exitCh = ch := by
        rintro ⟨w, hwm, hwe⟩
        have := hf w hwm
        omega
      by_cases heq : s.nextCh = ch
      · have hex : ∃ w ∈ s.watchers ++ [{ key := k, exitCh := s.nextCh, tickLive := b }],
            w.exitCh = ch :=
          ⟨{ key := k, exitCh := s.nextCh, tickLive := b }, by simp, heq⟩
        rw [if_pos hex, if_neg (show ¬(s.nextCh + 1 ≤ ch) by omega),
          if_neg hnone, if_pos hch]
      · have hlt : s.nextCh + 1 ≤ ch := by omega
        have hex2 : ¬ ∃ w ∈ s.watchers ++ [{ key := k, exitCh := s.nextCh, tickLive := b }],
            w.exitCh = ch := by
          rintro ⟨w, hwm, hwe⟩
          rw [List.mem_append] at hwm
          cases hwm with
          | inl hin => exact hnone ⟨w, hin, hwe⟩
          | inr hin =>
            simp only [List.mem_singleton] at hin
            subst hin
            exact heq hwe
        rw [if_neg hex2, if_pos hlt, if_neg hnone, if_pos hch]
    · have hch2 : ¬(s.nextCh + 1 ≤ ch) := by omega
      have hiff : (∃ w ∈ s.watchers ++ [{ key := k, exitCh := s.nextCh, tickLive := b }],
            w.exitCh = ch)
          ↔ (∃ w ∈ s.watchers, w.exitCh = ch) := by
        constructor
        · rintro ⟨w, hwm, hwe⟩
          rw [List.mem_append] at hwm
          cases hwm with
          | inl hin => exact ⟨w, hin, hwe⟩
          | inr hin =>
            simp only [List.mem_singleton] at hin
            subst hin
            exact absurd hwe (fun hx => hch (Nat.le_of_eq hx))
        · rintro ⟨w, hwm, hwe⟩
          exact ⟨w, List.mem_append_left _ hwm, hwe⟩
      rw [if_neg hch2, if_neg hch, if_congr hiff rfl rfl]

/-- A firing on channel `c` keeps freshness and consumes one unit of channel
`c`'s budget while not increasing any other channel's budget. -/
lemma budget_fire {s s1 : Cache α} {c : Nat}
    (hf : WatchersFresh s)
    (hex : ∃ w ∈ s.watchers, w.exitCh = c)
    (hn : s1.nextCh = s.nextCh)
    (hw : s1.watchers = s.watchers.filter (fun w2 => w2.exitCh != c))
    (ch : Nat) :
    WatchersFresh s1 ∧
    budget ch s1 + (if c = ch then 1 else 0) ≤ budget ch s := by
  constructor
  · intro w hwm
    rw [hw] at hwm
    rw [hn]
    exact hf w (List.mem_of_mem_filter hwm)
  · unfold budget
    rw [hn, hw]
    by_cases hcch : c = ch
    · subst hcch
      obtain ⟨w0, hw0m, hw0e⟩ := hex
      have hlt := hf w0 hw0m
      have hnone : ¬ ∃ w ∈ s.watchers.filter (fun w2 => w2.exitCh != c), w.exitCh = c := by
        rintro ⟨w, hwm, hwe⟩
        have hpf := List.of_mem_filter hwm
        simp [hwe] at hpf
      have hbefore : ∃ w ∈ s.watchers, w.exitCh = c := ⟨w0, hw0m, hw0e⟩
      rw [if_neg hnone, if_pos hbefore, if_pos rfl, if_neg (show ¬(s.nextCh ≤ c) by omega)]
    · have hiff : (∃ w ∈ s.watchers.filter (fun w2 => w2.exitCh != c), w.exitCh = ch)
          ↔ (∃ w ∈ s.watchers, w.exitCh = ch) := by
        constructor
        · rintro ⟨w, hwm, hwe⟩
          exact ⟨w, List.mem_of_mem_filter hwm, hwe⟩
        · rintro ⟨w, hwm, hwe⟩
          refine ⟨w, List.mem_filter.mpr ⟨hwm, ?_⟩, hwe⟩
          rw [hwe]
          simp [bne_iff_ne]
          exact fun hx => hcch hx.symm
      rw [if_neg hcch, if_congr hiff rfl rfl]
      omega

/-- One normally returning event preserves watcher freshness and pays one
unit of channel budget for each firing it performs. -/
lemma step_budget {s : Cache α} {op : Op α} {s1 : Cache α} {out : Out α}
    (h : step s op = StepRes.ok s1 out) (hf : WatchersFresh s) (ch : Nat) :
    WatchersFresh s1 ∧
    budget ch s1 + (if firesOn ch op then 1 else 0) ≤ budget ch s := by
  cases op with
  | set k v =>
    obtain ⟨hn, hw⟩ := set_runtime h
    refine ⟨watchersFresh_of_runtime hn hw hf, ?_⟩
    rw [budget_eq_of_runtime hn hw ch]
    simp [firesOn]
  | get k =>
    obtain ⟨hn, hw⟩ := get_runtime h
    refine ⟨watchersFresh_of_runtime hn hw hf, ?_⟩
    rw [budget_eq_of_runtime hn hw ch]
    simp [firesOn]
  | remove k =>
    obtain ⟨hn, hw, _⟩ := remove_ok h
    refine ⟨watchersFresh_of_runtime hn hw hf, ?_⟩
    rw [budget_eq_of_runtime hn hw ch]
    simp [firesOn]
  | getStats =>
    have hid := getStats_ok h
    subst hid
    exact ⟨hf, by simp [firesOn]⟩
  | setWithTTL k v ttl =>
    obtain ⟨b, hn, hw⟩ := setWithTTL_runtime h
    obtain ⟨hf1, hb⟩ := budget_setWithTTL hf hn hw ch
    refine ⟨hf1, ?_⟩
    simpa [firesOn] using hb
  | fireTick c =>
    obtain ⟨hex, hn, hw, _⟩ := fire_ok h
    obtain ⟨hf1, hb⟩ := budget_fire hf hex hn hw ch
    refine ⟨hf1, ?_⟩
    simpa [firesOn, beq_iff_eq] using hb
  | fireExit c =>
    obtain ⟨hex, hn, hw, _⟩ := fire_ok h
    obtain ⟨hf1, hb⟩ := budget_fire hf hex hn hw ch
    refine ⟨hf1, ?_⟩
    simpa [firesOn, beq_iff_eq] using hb

/-- Along any legal schedule, the firings on a channel stay within budget. -/
lemma run_countP_le {s : Cache α} {ops : List (Op α)} {s1 : Cache α}
    (h : runSt s ops = some s1) (hf : WatchersFresh s) (ch : Nat) :
    ops.countP (firesOn ch) ≤ budget ch s := by
  induction ops generalizing s with
  | nil => simp
  | cons op t ih =>
    unfold runSt at h
    cases hst : step s op with
    | ok s2 o =>
      simp only [hst] at h
      obtain ⟨hf2, hb⟩ := step_budget hst hf ch
      have hrec := ih h hf2
      rw [List.countP_cons]
      omega
    | blocked =>
      simp only [hst] at h
      exact Option.noConfusion h
    | panicked m =>
      simp only [hst] at h
      exact Option.noConfusion h

/-- C8: each TTL watcher fires at most once.  A firing (either the ticker
branch or the cancellation branch of its select loop) performs one removal
and terminates the goroutine, and watcher channels are allocated freshly, so
along any legal schedule from a state whose watcher channels are below the
fresh-name supply, at most one firing on any given channel returns
normally. -/
theorem watcher_fires_at_most_once (α : Type) (ch : Nat) (s : Cache α)
    (hf : WatchersFresh s) (ops : List (Op α)) (s1 : Cache α)
    (h : runSt s ops = some s1) :
    ops.countP (firesOn ch) ≤ 1 := by
  refine Nat.le_trans (run_countP_le h hf ch) ?_
  unfold budget
  by_cases hch : s.nextCh ≤ ch
  · have hnone : ¬ ∃ w ∈ s.watchers, w.exitCh = ch := by
      rintro ⟨w, hwm, hwe⟩
      have := hf w hwm
      omega
    simp [hnone, hch]
  · simp [hch]
    split <;> omega

theorem remove_idempotent_witness :
    removedTotal demoRm2 = removedTotal demoSet +
      (if ((demoSet.shard (getShardIdx "a")).entries "a").isSome then 1 else 0) :=
  (remove_idempotent Nat demoSet "a").2 demoRm1 demoRm2 Out.unit Out.unit rfl rfl

theorem counters_monotone_witness :
    statsLE ((demo0.shard 0).stats)
      ((((runSt demo0 [Op.set "a" 5, Op.get "a"]).getD demo0).shard 0).stats) :=
  counters_monotone Nat demo0 [Op.set "a" 5, Op.get "a"]
    ((runSt demo0 [Op.set "a" 5, Op.get "a"]).getD demo0) rfl 0

theorem watcher_fires_at_most_once_witness :
    ([Op.setWithTTL "k" 1 2, Op.fireTick 0] : List (Op Nat)).countP (firesOn 0) ≤ 1 :=
  watcher_fires_at_most_once Nat 0 demo0
    (by intro w hw; simp [demo0, Cache.New] at hw)
    [Op.setWithTTL "k" 1 2, Op.fireTick 0]
    ((runSt demo0 [Op.setWithTTL "k" 1 2, Op.fireTick 0]).getD demo0) rfl

/-- C1 (code bug): the claim says the watcher created for the overwritten
TTL entry never removes the key once a newer `Set` completes, and that `Get`
still returns the new value.  In the code the watcher's cancellation branch
also calls `Remove`: overwrite a TTL entry with a plain `Set`, let the old
watcher consume the cancellation signal, and the freshly written value is
evicted — the subsequent `Get` returns nil and false instead of (v2, true). -/
theorem overwrite_then_stale_removal :
    (runSt (Cache.New Nat 0) [Op.setWithTTL "k" 1 10, Op.set "k" 2, Op.fireExit 0]).map
      (fun s => outOf (s.Get "k")) = some (some (Out.got none false)) := by decide

/-- C2 (code bug): the claim says that after `Set(k, v)` the stored entry has
no cancellation handle attached and any previously scheduled expiration is
void.  In the code, `Set` copies the looked-up entry and never clears its
`exit` field: after `SetWithTTL` followed by `Set` on the same key the stored
entry still carries the previous watcher's exit channel (channel 0 here). -/
theorem set_keeps_stale_exit_handle :
    (runSt (Cache.New Nat 0) [Op.setWithTTL "k" 1 10, Op.set "k" 2]).map
      (fun s => ((s.shard (getShardIdx "k")).entries "k").map Entry.exit)
    = some (some (some 0)) := by decide

end Layercake
